import Mathlib

/-!
# Verification of the fixed-depth binary Merkle tree library

A shallow embedding of the `merkle` Go package (a fixed-depth binary Merkle
hash-tree library) together with proofs of the specified properties.

Byte buffers are modelled as `List Nat` (one entry per byte) and the
caller-supplied hash capability as a function on byte buffers.  Go `uint64`
arithmetic stays within `Nat` because every quantity involved is bounded
(depth ≤ 32, so `all_nodes ≤ 2^33 - 1 < 2^64`, and no subtraction can
underflow on the guarded paths).
-/

namespace Merkle

/-- A byte buffer: one `Nat` per byte. -/
abbrev Bytes := List Nat

/-- The hash capability: a digest function over an input buffer
(`hash.Hash` in Go, used in one-shot reset/write/sum fashion). -/
abbrev Hasher := Bytes → Bytes

/-! ## Config (from `config.go`) -/

/-- `DepthMin = 1` (config.go). -/
def DepthMin : Nat := 1

/-- `DepthMax = 32` (config.go). -/
def DepthMax : Nat := 32

/-- `HashSizeMin = 1` bytes (config.go). -/
def HashSizeMin : Nat := 1

/-- `HashSizeMax = 64` bytes (config.go). -/
def HashSizeMax : Nat := 64

/-- The distinguishable error values returned by `NewConfig` (config.go). -/
inductive ConfigError where
  | tooSmallDepth
  | tooLargeDepth
  | tooSmallHashSize
  | tooLargeHashSize
deriving DecidableEq, Repr

/-- The `Config` struct (config.go).  The `hasher` field is stored exactly as
supplied; `none` models a `nil` `hash.Hash` interface value. -/
structure Config where
  hasher : Option Hasher
  depth : Nat
  hashSize : Nat
  allLeavesNum : Nat
  allNodesNum : Nat

/-- The loop `for i := allLeavesNum; i >= 1; i /= 2 { allNodesNum += i }`
of `NewConfig` (config.go), with accumulator `acc` for `allNodesNum`. -/
def allNodesLoop (i acc : Nat) : Nat :=
  if h : 1 ≤ i then allNodesLoop (i / 2) (acc + i) else acc
termination_by i
decreasing_by exact Nat.div_lt_self h (by norm_num)

/-- `NewConfig` (config.go): validates `depth` and `hashSize` in fixed order
and derives the capacity fields.  `uint64(math.Exp2(float64(depth)))` is
exactly `2 ^ depth` for every depth that passes validation (`depth ≤ 32`),
which is how it is rendered here. -/
def NewConfig (hasher : Option Hasher) (depth hashSize : Nat) :
    Except ConfigError Config :=
  if depth < DepthMin then .error .tooSmallDepth
  else if depth > DepthMax then .error .tooLargeDepth
  else if hashSize < HashSizeMin then .error .tooSmallHashSize
  else if hashSize > HashSizeMax then .error .tooLargeHashSize
  else
    let allLeavesNum := 2 ^ depth
    let allNodesNum := allNodesLoop allLeavesNum 0
    .ok ⟨hasher, depth, hashSize, allLeavesNum, allNodesNum⟩

/-! ## Tree (the tree implementation file is not part of the sources at hand:
only `config.go` and the test file are; the tree operations below are
modelled from the spec, cross-checked against the sha256 test vectors of the
test file). -/

/-- The distinguishable error values of the tree operations; both are
referenced by the test file (`ErrTooManyLeaves`, `ErrLeafIndexOutOfRange`). -/
inductive TreeError where
  | tooManyLeaves
  | leafIndexOutOfRange
deriving DecidableEq, Repr

/-- The hash capability carried by a config, with a vacuous fallback for a
`nil` hasher (never exercised by any theorem below: they all assume an
actual hasher is present). -/
def Config.H (c : Config) : Hasher := c.hasher.getD (fun _ => [])

/-- Modelled from the spec: the empty-leaf sentinel digest for leaf slots at
or beyond the supplied leaf count (§4.2, §9).  The spec leaves the exact
policy open; the test vectors fix it: the missing slot digest is the hash of
a zero buffer of `hashSize` bytes (sha256 of 32 zero bytes reproduces the
test's fourth-leaf sibling digest). -/
def emptyLeaf (H : Hasher) (hashSize : Nat) : Bytes :=
  H (List.replicate hashSize 0)

/-- Modelled from the spec: the materialised leaf level (§4.2 step 1).
Slot `i < len(leaves)` gets `H(leaves[i])`; the remaining
`allLeaves - len(leaves)` slots get the empty-leaf sentinel. -/
def mkLeafLevel (H : Hasher) (hashSize : Nat) (leaves : List Bytes)
    (allLeaves : Nat) : List Bytes :=
  leaves.map H ++ List.replicate (allLeaves - leaves.length) (emptyLeaf H hashSize)

/-- Modelled from the spec: one bottom-up construction step (§4.2 step 2).
The node at position `p` of the upper level is `H(child_left ++ child_right)`
where the children sit at positions `2p` and `2p+1` of the lower level. -/
def levelUp (H : Hasher) : List Bytes → List Bytes
  | l :: r :: rest => H (l ++ r) :: levelUp H rest
  | _ => []

/-- Modelled from the spec: the `Tree` struct (§3).  It keeps a reference to
its config, indexed access to the leaf-level node digests, and the root
digest (the apex of the node graph built bottom-up from the leaf level). -/
structure Tree where
  config : Config
  leafLevel : List Bytes
  rootDigest : Bytes

/-- The digests of the nodes `j` levels above the leaf level of a tree
(`j = 0` is the leaf level itself; `j = depth` is the root level). -/
def Tree.levelAbove (t : Tree) (j : Nat) : List Bytes :=
  (levelUp t.config.H)^[j] t.leafLevel

/-- `Root()`: the root digest of the tree. -/
def Tree.Root (t : Tree) : Bytes := t.rootDigest

/-- Modelled from the spec: `NewTree(config, leaves)` (§4.2).  Fails with the
capacity error when more leaves are supplied than the tree can hold;
otherwise materialises the padded leaf level and folds it bottom-up
`depth` times to the single root node.  All-or-nothing by construction. -/
def NewTree (c : Config) (leaves : List Bytes) : Except TreeError Tree :=
  if leaves.length > c.allLeavesNum then .error .tooManyLeaves
  else
    let lvl := mkLeafLevel c.H c.hashSize leaves c.allLeavesNum
    .ok ⟨c, lvl, ((levelUp c.H)^[c.depth] lvl).headD []⟩

/-- Modelled from the spec: the list of sibling digests along the path from
leaf index `idx` up through `d` levels (§4.3): at each level the sibling sits
at the path position with the lowest bit flipped, and the walk continues one
level up at the halved position. -/
def siblings (H : Hasher) : Nat → List Bytes → Nat → List Bytes
  | 0, _, _ => []
  | d + 1, lvl, idx =>
      lvl.getD (idx ^^^ 1) [] :: siblings H d (levelUp H lvl) (idx / 2)

/-- Modelled from the spec: `CreateMembershipProof(index)` (§4.3).  Fails
with the out-of-range error when `index ≥ all_leaves`; otherwise concatenates
the `depth` sibling digests in leaf-to-root order. -/
def CreateMembershipProof (t : Tree) (index : Nat) : Except TreeError Bytes :=
  if index ≥ t.config.allLeavesNum then .error .leafIndexOutOfRange
  else .ok (siblings t.config.H t.config.depth t.leafLevel index).flatten

/-- Modelled from the spec: the recomputation loop of proof verification
(§4.4).  Starting from the current digest `cur` at path position `idx`,
consume one `hashSize`-byte chunk of `proof` per level as the sibling digest;
the parity of `idx` decides whether `cur` is the left or the right operand. -/
def verifyUp (H : Hasher) (hashSize : Nat) :
    Nat → Bytes → Nat → Bytes → Bytes
  | 0, _, _, cur => cur
  | d + 1, proof, idx, cur =>
      let sib := proof.take hashSize
      let cur' := if idx % 2 = 0 then H (cur ++ sib) else H (sib ++ cur)
      verifyUp H hashSize d (proof.drop hashSize) (idx / 2) cur'

/-- Modelled from the spec: `VerifyMembershipProof(index, proof)` (§4.4).
Fails with the out-of-range error when `index ≥ all_leaves`, before looking
at `proof`; otherwise recomputes upward from the tree's own stored leaf
digest at `index` and compares the result byte-for-byte with the tree's own
root digest, returning the boolean outcome (a mismatch is not an error). -/
def VerifyMembershipProof (t : Tree) (index : Nat) (proof : Bytes) :
    Except TreeError Bool :=
  if index ≥ t.config.allLeavesNum then .error .leafIndexOutOfRange
  else
    .ok (decide
      (verifyUp t.config.H t.config.hashSize t.config.depth proof index
        (t.leafLevel.getD index []) = t.rootDigest))

/-! ## Concrete instances used to exercise the model -/

/-- A toy digest function used to exercise the model on concrete inputs:
a 1-byte digest summing the buffer. -/
def sumHash : Hasher := fun b => [b.foldl (· + ·) 0]

/-- A toy config of depth 1 with 1-byte digests. -/
def cfg1 : Config := ⟨some sumHash, 1, 1, 2, 3⟩

/-- An injective encoding of byte buffers into a single number, used to
build a collision-free toy hasher. -/
def encodeBytes : Bytes → Nat
  | [] => 0
  | x :: xs => Nat.pair x (encodeBytes xs) + 1

/-- A collision-free toy hasher producing 1-entry digests (the entry value
is unbounded, which the byte-buffer model permits): distinct inputs always
yield distinct digests, so no hash collision can ever occur. -/
def pairHash : Hasher := fun b => [encodeBytes b]

/-- A toy config of depth 1 over the collision-free hasher. -/
def cfgP : Config := ⟨some pairHash, 1, 1, 2, 3⟩

/-! ## Auxiliary lemmas about the level structure -/

/-- The loop of `NewConfig` adds `i + i/2 + ⋯ + 1`; starting from a power of
two this sums the node counts of every level: `2^(d+1) - 1` in total. -/
theorem allNodesLoop_pow (d acc : Nat) :
    allNodesLoop (2 ^ d) acc = acc + (2 ^ (d + 1) - 1) := by
  induction d generalizing acc with
  | zero => rw [allNodesLoop]; simp [allNodesLoop]
  | succ d ih =>
    rw [allNodesLoop]
    have h1 : 1 ≤ 2 ^ (d + 1) := Nat.one_le_two_pow
    rw [dif_pos h1]
    have h2 : 2 ^ (d + 1) / 2 = 2 ^ d := by
      rw [pow_succ, Nat.mul_div_cancel]
      norm_num
    rw [h2, ih]
    have h3 : 1 ≤ 2 ^ (d + 1 + 1) := Nat.one_le_two_pow
    have h4 : 1 ≤ 2 ^ (d + 1) := h1
    rw [pow_succ 2 (d + 1)]
    omega

/-- One construction step halves the node count (integer division). -/
theorem levelUp_length (H : Hasher) :
    (L : List Bytes) → (levelUp H L).length = L.length / 2
  | [] => by simp [levelUp]
  | [l] => by simp [levelUp]
  | l :: r :: rest => by
      simp [levelUp, levelUp_length H rest]
      omega

/-- The node at position `p` of the level above is the hash of the
concatenation of the nodes at positions `2p` and `2p+1`. -/
theorem levelUp_getD (H : Hasher) :
    (L : List Bytes) → (p : Nat) → 2 * p + 1 < L.length →
      (levelUp H L).getD p [] =
        H (L.getD (2 * p) [] ++ L.getD (2 * p + 1) [])
  | [], p, h => by simp at h
  | [l], p, h => by simp at h
  | l :: r :: rest, 0, _ => by simp [levelUp]
  | l :: r :: rest, p + 1, h => by
      have hr : 2 * p + 1 < rest.length := by
        simp only [List.length_cons] at h; omega
      have ih := levelUp_getD H rest p hr
      have e1 : 2 * (p + 1) = 2 * p + 1 + 1 := by ring
      have e2 : 2 * (p + 1) + 1 = 2 * p + 1 + 1 + 1 := by ring
      rw [levelUp, e1, List.getD_cons_succ, List.getD_cons_succ,
        List.getD_cons_succ, List.getD_cons_succ, List.getD_cons_succ, ih]

/-- Every digest produced by a construction step has the hasher's output
length. -/
theorem levelUp_mem_length (H : Hasher) (hs : Nat)
    (hH : ∀ b, (H b).length = hs) :
    (L : List Bytes) → ∀ b ∈ levelUp H L, b.length = hs
  | [] => by simp [levelUp]
  | [l] => by simp [levelUp]
  | l :: r :: rest => by
      intro b hb
      rw [levelUp] at hb
      rcases List.mem_cons.mp hb with h | h
      · subst h; exact hH _
      · exact levelUp_mem_length H hs hH rest b h

/-- Iterating the construction step `j` times divides the node count by
`2^j`. -/
theorem iterate_levelUp_length (H : Hasher) (j : Nat) (L : List Bytes) :
    ((levelUp H)^[j] L).length = L.length / 2 ^ j := by
  induction j generalizing L with
  | zero => simp
  | succ j ih =>
      rw [Function.iterate_succ_apply, ih, levelUp_length,
        Nat.div_div_eq_div_mul, pow_succ]
      ring_nf

/-- Digest lengths are preserved by iterated construction steps. -/
theorem iterate_levelUp_mem_length (H : Hasher) (hs : Nat)
    (hH : ∀ b, (H b).length = hs) (j : Nat) (L : List Bytes)
    (hL : ∀ b ∈ L, b.length = hs) :
    ∀ b ∈ (levelUp H)^[j] L, b.length = hs := by
  induction j generalizing L with
  | zero => simpa using hL
  | succ j ih =>
      rw [Function.iterate_succ_apply]
      exact ih (levelUp H L) (levelUp_mem_length H hs hH L)

/-- The leaf level has exactly `allLeaves` slots whenever the supplied
leaves fit. -/
theorem mkLeafLevel_length (H : Hasher) (hs : Nat) (leaves : List Bytes)
    (n : Nat) (h : leaves.length ≤ n) :
    (mkLeafLevel H hs leaves n).length = n := by
  simp [mkLeafLevel]
  omega

/-- Every leaf-level digest has the hasher's output length. -/
theorem mkLeafLevel_mem_length (H : Hasher) (hs : Nat) (leaves : List Bytes)
    (n : Nat) (hH : ∀ b, (H b).length = hs) :
    ∀ b ∈ mkLeafLevel H hs leaves n, b.length = hs := by
  intro b hb
  rw [mkLeafLevel] at hb
  rcases List.mem_append.mp hb with h | h
  · rcases List.mem_map.mp h with ⟨a, _, rfl⟩
    exact hH a
  · rw [List.eq_of_mem_replicate h, emptyLeaf]
    exact hH _

/-- Flipping the lowest bit of an even number adds one. -/
theorem xor_one_of_even (m : Nat) : (2 * m) ^^^ 1 = 2 * m + 1 := by
  have h : Nat.bit false m ^^^ Nat.bit true 0 = Nat.bit true (m ^^^ 0) := by
    rw [Nat.xor_bit]
    norm_num
  simpa [Nat.bit] using h

/-- Flipping the lowest bit of an odd number subtracts one. -/
theorem xor_one_of_odd (m : Nat) : (2 * m + 1) ^^^ 1 = 2 * m := by
  have h : Nat.bit true m ^^^ Nat.bit true 0 = Nat.bit false (m ^^^ 0) := by
    rw [Nat.xor_bit]
    norm_num
  simpa [Nat.bit] using h

/-- A sibling position stays inside a level of size `2^(k+1)`. -/
theorem xor_one_lt {n k : Nat} (h : n < 2 ^ (k + 1)) :
    n ^^^ 1 < 2 ^ (k + 1) := by
  have hp : 2 ^ (k + 1) = 2 * 2 ^ k := by rw [pow_succ]; ring
  rcases Nat.even_or_odd n with he | ho
  · obtain ⟨m, hm⟩ := he
    have hn : n = 2 * m := by omega
    rw [hn, xor_one_of_even]
    omega
  · obtain ⟨m, hm⟩ := ho
    rw [hm, xor_one_of_odd]
    omega

/-- The digest stored at an in-range position keeps the common digest
length of the level. -/
theorem getD_length (L : List Bytes) (i : Nat) (hs : Nat)
    (hL : ∀ b ∈ L, b.length = hs) (hi : i < L.length) :
    (L.getD i []).length = hs := by
  rw [List.getD_eq_getElem L [] hi]
  exact hL _ (List.getElem_mem hi)

/-- Combining the current digest with its sibling digest — ordered by the
parity of the current position — yields exactly the parent digest one level
up. -/
theorem combine_eq_levelUp_getD (H : Hasher) (lvl : List Bytes) (idx : Nat)
    (h1 : idx ^^^ 1 < lvl.length) (h2 : idx < lvl.length) :
    (if idx % 2 = 0 then H (lvl.getD idx [] ++ lvl.getD (idx ^^^ 1) [])
      else H (lvl.getD (idx ^^^ 1) [] ++ lvl.getD idx [])) =
      (levelUp H lvl).getD (idx / 2) [] := by
  rcases Nat.mod_two_eq_zero_or_one idx with hp | hp
  · have hm : idx = 2 * (idx / 2) := by omega
    have hx : idx ^^^ 1 = idx + 1 := by
      conv_lhs => rw [hm]
      rw [xor_one_of_even]
      omega
    rw [if_pos hp, hx, levelUp_getD H lvl (idx / 2) (by omega), ← hm]
  · have hm : idx = 2 * (idx / 2) + 1 := by omega
    have hx : idx ^^^ 1 = 2 * (idx / 2) := by
      conv_lhs => rw [hm]
      rw [xor_one_of_odd]
    rw [if_neg (by omega), hx, levelUp_getD H lvl (idx / 2) (by omega), ← hm]

/-- Recomputing upward from the stored digest at `idx`, consuming the
concatenated sibling digests of the path chunk by chunk, reproduces the
apex digest of the level. -/
theorem verifyUp_siblings (H : Hasher) (hs : Nat)
    (hH : ∀ b, (H b).length = hs) (d : Nat) :
    ∀ (lvl : List Bytes) (idx : Nat),
      (∀ b ∈ lvl, b.length = hs) → lvl.length = 2 ^ d → idx < 2 ^ d →
      verifyUp H hs d (siblings H d lvl idx).flatten idx (lvl.getD idx []) =
        ((levelUp H)^[d] lvl).headD [] := by
  induction d with
  | zero =>
      intro lvl idx hlvl hlen hidx
      have h0 : idx = 0 := by simpa using hidx
      subst h0
      rw [verifyUp, Function.iterate_zero_apply]
      cases lvl with
      | nil => simp at hlen
      | cons a t => rfl
  | succ d ih =>
      intro lvl idx hlvl hlen hidx
      have hpow : 2 ^ (d + 1) = 2 * 2 ^ d := by rw [pow_succ]; ring
      have hsx : idx ^^^ 1 < lvl.length := by rw [hlen]; exact xor_one_lt hidx
      have hix : idx < lvl.length := by omega
      have hchunk : (lvl.getD (idx ^^^ 1) []).length = hs :=
        getD_length lvl (idx ^^^ 1) hs hlvl hsx
      rw [siblings, List.flatten_cons, verifyUp]
      simp only [← hchunk, List.take_left, List.drop_left]
      rw [hchunk, combine_eq_levelUp_getD H lvl idx hsx hix]
      rw [ih (levelUp H lvl) (idx / 2)
        (levelUp_mem_length H hs hH lvl)
        (by rw [levelUp_length, hlen]; omega)
        (by omega)]
      rw [Function.iterate_succ_apply]

/-- Inversion of a successful `NewTree`: the leaves fit, and the resulting
tree carries the given config, the padded leaf level, and the bottom-up
root digest. -/
theorem NewTree_ok_inv {c : Config} {leaves : List Bytes} {t : Tree}
    (h : NewTree c leaves = .ok t) :
    leaves.length ≤ c.allLeavesNum ∧
    t.config = c ∧
    t.leafLevel = mkLeafLevel c.H c.hashSize leaves c.allLeavesNum ∧
    t.rootDigest = ((levelUp c.H)^[c.depth] t.leafLevel).headD [] := by
  rw [NewTree] at h
  by_cases hg : leaves.length > c.allLeavesNum
  · rw [if_pos hg] at h
    exact absurd h (by simp)
  · rw [if_neg hg] at h
    have ht := (Except.ok.inj h).symm
    subst ht
    exact ⟨by omega, rfl, rfl, rfl⟩

/-- The sibling walk collects exactly one digest per level. -/
theorem siblings_length (H : Hasher) :
    ∀ (d : Nat) (lvl : List Bytes) (idx : Nat),
      (siblings H d lvl idx).length = d
  | 0, _, _ => rfl
  | d + 1, lvl, idx => by
      rw [siblings, List.length_cons, siblings_length H d]

/-- The `k`-th digest collected by the sibling walk is the digest stored
`k` levels above the leaves at the path position with the lowest bit
flipped. -/
theorem siblings_getD (H : Hasher) :
    ∀ (d k : Nat) (lvl : List Bytes) (idx : Nat), k < d →
      (siblings H d lvl idx).getD k [] =
        ((levelUp H)^[k] lvl).getD ((idx / 2 ^ k) ^^^ 1) []
  | d + 1, 0, lvl, idx, _ => by
      rw [siblings, List.getD_cons_zero, Function.iterate_zero_apply,
        pow_zero, Nat.div_one]
  | d + 1, k + 1, lvl, idx, h => by
      rw [siblings, List.getD_cons_succ,
        siblings_getD H d k (levelUp H lvl) (idx / 2) (by omega),
        Function.iterate_succ_apply, Nat.div_div_eq_div_mul, pow_succ,
        mul_comm 2 (2 ^ k)]

/-- Flattening a list of `n` buffers of `hs` bytes each yields `n · hs`
bytes. -/
theorem flatten_length_of_uniform (hs : Nat) :
    ∀ (L : List Bytes), (∀ b ∈ L, b.length = hs) →
      L.flatten.length = L.length * hs
  | [], _ => by simp
  | a :: rest, h => by
      rw [List.flatten_cons, List.length_append, List.length_cons,
        flatten_length_of_uniform hs rest (fun b hb => h b (List.mem_cons_of_mem a hb)),
        h a (List.mem_cons_self a rest)]
      ring

/-- In the flattening of uniformly `hs`-byte chunks, the bytes from offset
`k · hs` to `(k+1) · hs` are exactly the `k`-th chunk. -/
theorem flatten_chunk (hs : Nat) :
    ∀ (L : List Bytes) (k : Nat), (∀ b ∈ L, b.length = hs) → k < L.length →
      (L.flatten.drop (k * hs)).take hs = L.getD k []
  | a :: rest, 0, h, _ => by
      have ha : a.length = hs := h a (List.mem_cons_self a rest)
      rw [List.flatten_cons, Nat.zero_mul, List.drop_zero,
        List.getD_cons_zero, ← ha, List.take_left]
  | a :: rest, k + 1, h, hk => by
      have ha : a.length = hs := h a (List.mem_cons_self a rest)
      have e : (k + 1) * hs = a.length + k * hs := by rw [ha]; ring
      rw [List.flatten_cons, e, List.drop_append, List.getD_cons_succ]
      exact flatten_chunk hs rest k
        (fun b hb => h b (List.mem_cons_of_mem a hb)) (by simpa using hk)

/-- Every digest collected by the sibling walk has the hasher's output
length, provided the walk starts inside a complete level. -/
theorem siblings_mem_length (H : Hasher) (hs : Nat)
    (hH : ∀ b, (H b).length = hs) :
    ∀ (d : Nat) (lvl : List Bytes) (idx : Nat),
      (∀ b ∈ lvl, b.length = hs) → lvl.length = 2 ^ d → idx < 2 ^ d →
      ∀ b ∈ siblings H d lvl idx, b.length = hs
  | 0, lvl, idx, _, _, _ => by
      rw [siblings]
      simp
  | d + 1, lvl, idx, hlvl, hlen, hidx => by
      intro b hb
      rw [siblings] at hb
      rcases List.mem_cons.mp hb with h | h
      · subst h
        exact getD_length lvl (idx ^^^ 1) hs hlvl
          (by rw [hlen]; exact xor_one_lt hidx)
      · have hpow : 2 ^ (d + 1) = 2 * 2 ^ d := by rw [pow_succ]; ring
        exact siblings_mem_length H hs hH d (levelUp H lvl) (idx / 2)
          (levelUp_mem_length H hs hH lvl)
          (by rw [levelUp_length, hlen]; omega)
          (by omega) b h

/-- The byte-buffer encoding behind the collision-free toy hasher is
injective. -/
theorem encodeBytes_injective : Function.Injective encodeBytes := by
  intro a b h
  induction a generalizing b with
  | nil =>
      cases b with
      | nil => rfl
      | cons y ys =>
          rw [encodeBytes, encodeBytes] at h
          omega
  | cons x xs ih =>
      cases b with
      | nil =>
          rw [encodeBytes, encodeBytes] at h
          omega
      | cons y ys =>
          rw [encodeBytes, encodeBytes] at h
          have h2 : Nat.pair x (encodeBytes xs) =
              Nat.pair y (encodeBytes ys) := by omega
          obtain ⟨hxy, he⟩ := Nat.pair_eq_pair.mp h2
          rw [hxy, ih he]

/-- The toy hasher `pairHash` is collision-free. -/
theorem pairHash_injective : Function.Injective pairHash := by
  intro a b h
  simp only [pairHash, List.cons.injEq, and_true] at h
  exact encodeBytes_injective h

/-- Distinct positions of a duplicate-free level hold distinct digests. -/
theorem getD_ne_of_nodup (lvl : List Bytes) (hnd : lvl.Nodup) (a b : Nat)
    (ha : a < lvl.length) (hb : b < lvl.length) (hab : a ≠ b) :
    lvl.getD a [] ≠ lvl.getD b [] := by
  rw [List.getD_eq_getElem _ _ ha, List.getD_eq_getElem _ _ hb]
  intro h
  exact hab (hnd.getElem_inj_iff.mp h)

/-- With a collision-free hasher, one construction step maps a
duplicate-free level of uniform digest length to a duplicate-free level. -/
theorem levelUp_nodup (H : Hasher) (hs : Nat) (lvl : List Bytes)
    (hinj : Function.Injective H)
    (hu : ∀ b ∈ lvl, b.length = hs) (hnd : lvl.Nodup) :
    (levelUp H lvl).Nodup := by
  rw [List.nodup_iff_injective_get]
  intro p q hpq
  have hlu : (levelUp H lvl).length = lvl.length / 2 := levelUp_length H lvl
  have hp2 : 2 * p.1 + 1 < lvl.length := by
    have := p.2
    omega
  have hq2 : 2 * q.1 + 1 < lvl.length := by
    have := q.2
    omega
  have hgp : (levelUp H lvl).get p = (levelUp H lvl).getD p.1 [] := by
    rw [List.get_eq_getElem, List.getD_eq_getElem _ _ p.2]
  have hgq : (levelUp H lvl).get q = (levelUp H lvl).getD q.1 [] := by
    rw [List.get_eq_getElem, List.getD_eq_getElem _ _ q.2]
  rw [hgp, hgq, levelUp_getD H lvl p.1 hp2, levelUp_getD H lvl q.1 hq2] at hpq
  have hcat := hinj hpq
  have hfst := (List.append_inj hcat
    (by rw [getD_length lvl _ hs hu (by omega),
      getD_length lvl _ hs hu (by omega)])).1
  have hbp : 2 * p.1 < lvl.length := by omega
  have hbq : 2 * q.1 < lvl.length := by omega
  rw [List.getD_eq_getElem _ _ hbp, List.getD_eq_getElem _ _ hbq] at hfst
  have h2pq := hnd.getElem_inj_iff.mp hfst
  exact Fin.ext (by omega)

/-- Master non-malleability lemma: recomputing upward from position `j` with
starting value `cur` while consuming the sibling digests of the walk from
position `i` reaches the apex of a duplicate-free level only if the walk
and the recomputation agree — `i = j` and `cur` is the digest actually
stored at `j` — provided the hasher is collision-free with uniform output
length. -/
theorem verifyUp_siblings_ne (H : Hasher) (hs : Nat)
    (hinj : Function.Injective H) (hH : ∀ b, (H b).length = hs) (d : Nat) :
    ∀ (lvl : List Bytes) (i j : Nat) (cur : Bytes),
      (∀ b ∈ lvl, b.length = hs) → lvl.length = 2 ^ d → lvl.Nodup →
      i < 2 ^ d → j < 2 ^ d → cur.length = hs →
      (cur ≠ lvl.getD j [] ∨ i ≠ j) →
      verifyUp H hs d (siblings H d lvl i).flatten j cur ≠
        ((levelUp H)^[d] lvl).headD [] := by
  induction d with
  | zero =>
      intro lvl i j cur hu hlen hnd hi hj hcur hdisj
      have hi0 : i = 0 := by simpa using hi
      have hj0 : j = 0 := by simpa using hj
      subst hi0
      subst hj0
      rcases hdisj with hc | hij
      · rw [verifyUp, Function.iterate_zero_apply]
        cases lvl with
        | nil => simp at hlen
        | cons a rest => exact hc
      · exact absurd rfl hij
  | succ d ih =>
      intro lvl i j cur hu hlen hnd hi hj hcur hdisj
      have hpow : 2 ^ (d + 1) = 2 * 2 ^ d := by rw [pow_succ]; ring
      have hsx : i ^^^ 1 < lvl.length := by rw [hlen]; exact xor_one_lt hi
      have hjl : j < lvl.length := by omega
      have hil : i < lvl.length := by omega
      have hchunk : (lvl.getD (i ^^^ 1) []).length = hs :=
        getD_length lvl (i ^^^ 1) hs hu hsx
      have hparent : (levelUp H lvl).getD (j / 2) [] =
          H (lvl.getD (2 * (j / 2)) [] ++ lvl.getD (2 * (j / 2) + 1) []) :=
        levelUp_getD H lvl (j / 2) (by omega)
      rw [siblings, List.flatten_cons, verifyUp]
      simp only [← hchunk, List.take_left, List.drop_left]
      rw [hchunk, Function.iterate_succ_apply]
      rcases Nat.mod_two_eq_zero_or_one j with hj2 | hj2
      · have hjeq : 2 * (j / 2) = j := by omega
        have hxj : j ^^^ 1 = j + 1 := by
          conv_lhs => rw [← hjeq]
          rw [xor_one_of_even]
          omega
        rw [if_pos hj2]
        rw [hjeq] at hparent
        refine ih (levelUp H lvl) (i / 2) (j / 2) _
          (levelUp_mem_length H hs hH lvl)
          (by rw [levelUp_length, hlen]; omega)
          (levelUp_nodup H hs lvl hinj hu hnd)
          (by omega) (by omega) (hH _) ?_
        by_cases hij2 : i / 2 = j / 2
        · left
          by_cases hij : i = j
          · rcases hdisj with hc | hne
            · rw [hij, hxj, hparent]
              intro heq
              have hcat := hinj heq
              exact hc (List.append_inj hcat
                (by rw [hcur, getD_length lvl j hs hu hjl])).1
            · exact absurd hij hne
          · have hieq : i = j + 1 := by omega
            have hxi : i ^^^ 1 = j := by
              rw [hieq]
              conv_lhs => rw [← hjeq]
              rw [xor_one_of_odd, hjeq]
            rw [hxi, hparent]
            intro heq
            have hcat := hinj heq
            have hpair := List.append_inj hcat
              (by rw [hcur, getD_length lvl j hs hu hjl])
            exact getD_ne_of_nodup lvl hnd j (j + 1) hjl (by omega)
              (by omega) hpair.2
        · exact Or.inr hij2
      · have hjeq : 2 * (j / 2) + 1 = j := by omega
        have hxj : j ^^^ 1 = 2 * (j / 2) := by
          conv_lhs => rw [← hjeq]
          rw [xor_one_of_odd]
        rw [if_neg (by omega)]
        rw [hjeq] at hparent
        refine ih (levelUp H lvl) (i / 2) (j / 2) _
          (levelUp_mem_length H hs hH lvl)
          (by rw [levelUp_length, hlen]; omega)
          (levelUp_nodup H hs lvl hinj hu hnd)
          (by omega) (by omega) (hH _) ?_
        by_cases hij2 : i / 2 = j / 2
        · left
          by_cases hij : i = j
          · rcases hdisj with hc | hne
            · rw [hij, hxj, hparent]
              intro heq
              have hcat := hinj heq
              exact hc (List.append_inj hcat rfl).2
            · exact absurd hij hne
          · have hieq : i = 2 * (j / 2) := by omega
            have hxi : i ^^^ 1 = j := by
              rw [hieq, xor_one_of_even, hjeq]
            rw [hxi, hparent]
            intro heq
            have hcat := hinj heq
            have hpair := List.append_inj hcat
              (by rw [getD_length lvl j hs hu hjl,
                getD_length lvl (2 * (j / 2)) hs hu (by omega)])
            exact getD_ne_of_nodup lvl hnd j (2 * (j / 2)) hjl (by omega)
              (by omega) hpair.1
        · exact Or.inr hij2

/-! ## The claims -/

/-- Claim C1: for every tree successfully built by `NewTree` (under a config
whose hasher produces `hashSize`-byte digests and whose capacity fields are
coherent) and every index `i` with `0 ≤ i < all_leaves`, verifying the
membership proof freshly created for `i` on that same tree returns `true`. -/
theorem C1_create_verify_roundtrip
    (c : Config) (H : Hasher) (leaves : List Bytes) (t : Tree) (i : Nat)
    (proof : Bytes)
    (hH : c.hasher = some H)
    (hlen : ∀ b, (H b).length = c.hashSize)
    (hcap : c.allLeavesNum = 2 ^ c.depth)
    (ht : NewTree c leaves = .ok t)
    (hi : i < c.allLeavesNum)
    (hp : CreateMembershipProof t i = .ok proof) :
    VerifyMembershipProof t i proof = .ok true := by
  obtain ⟨hfit, hconf, hleaf, hroot⟩ := NewTree_ok_inv ht
  have hcH : c.H = H := by rw [Config.H, hH]; rfl
  rw [CreateMembershipProof, hconf, if_neg (by omega)] at hp
  have hproof := (Except.ok.inj hp).symm
  rw [VerifyMembershipProof, hconf, if_neg (by omega)]
  simp only [Except.ok.injEq, decide_eq_true_eq]
  rw [hproof, hroot, hleaf, hcH]
  exact verifyUp_siblings H c.hashSize hlen c.depth
    (mkLeafLevel H c.hashSize leaves c.allLeavesNum) i
    (mkLeafLevel_mem_length H c.hashSize leaves c.allLeavesNum hlen)
    (by rw [mkLeafLevel_length H c.hashSize leaves c.allLeavesNum hfit, hcap])
    (by omega)

/-- Claim C2: `CreateMembershipProof(index)` returns the out-of-range error
exactly when `index ≥ all_leaves`; for every in-range index it never fails
and returns exactly `depth · hash_size` bytes, whose `k`-th
`hash_size`-byte chunk (in leaf-to-root order, `k = 0` first) is the digest
of the sibling of the path node `k` levels above the leaves — the node at
the same level whose position differs from the path node's position only in
its lowest bit. -/
theorem C2_create_proof_spec
    (c : Config) (H : Hasher) (leaves : List Bytes) (t : Tree)
    (hH : c.hasher = some H)
    (hlen : ∀ b, (H b).length = c.hashSize)
    (hcap : c.allLeavesNum = 2 ^ c.depth)
    (ht : NewTree c leaves = .ok t) :
    (∀ j, c.allLeavesNum ≤ j →
      CreateMembershipProof t j = .error .leafIndexOutOfRange) ∧
    (∀ i, i < c.allLeavesNum → ∃ p,
      CreateMembershipProof t i = .ok p ∧
      p.length = c.depth * c.hashSize ∧
      ∀ k, k < c.depth →
        (p.drop (k * c.hashSize)).take c.hashSize =
          (t.levelAbove k).getD ((i / 2 ^ k) ^^^ 1) []) := by
  obtain ⟨hfit, hconf, hleaf, hroot⟩ := NewTree_ok_inv ht
  have hcH : c.H = H := by rw [Config.H, hH]; rfl
  have hlvl : ∀ b ∈ t.leafLevel, b.length = c.hashSize := by
    rw [hleaf, hcH]
    exact mkLeafLevel_mem_length H c.hashSize leaves c.allLeavesNum hlen
  have hlvlen : t.leafLevel.length = 2 ^ c.depth := by
    rw [hleaf, hcH, mkLeafLevel_length H c.hashSize leaves c.allLeavesNum hfit,
      hcap]
  constructor
  · intro j hj
    rw [CreateMembershipProof, hconf, if_pos (by omega)]
  · intro i hi
    have hi2 : i < 2 ^ c.depth := by omega
    have hmem : ∀ b ∈ siblings H c.depth t.leafLevel i,
        b.length = c.hashSize :=
      siblings_mem_length H c.hashSize hlen c.depth t.leafLevel i
        hlvl hlvlen hi2
    refine ⟨(siblings H c.depth t.leafLevel i).flatten, ?_, ?_, ?_⟩
    · rw [CreateMembershipProof, hconf, if_neg (by omega), hcH]
    · rw [flatten_length_of_uniform c.hashSize _ hmem,
        siblings_length H c.depth t.leafLevel i]
    · intro k hk
      rw [flatten_chunk c.hashSize _ k hmem
          (by rw [siblings_length H c.depth t.leafLevel i]; omega),
        siblings_getD H c.depth k t.leafLevel i hk,
        Tree.levelAbove, hconf, hcH]

/-- Concrete instance of claim C2: on the depth-1 toy tree over `sumHash`,
index 2 is rejected as out of range and index 0 yields a proof with the
specified length and sibling chunk. -/
theorem C2_witness :
    CreateMembershipProof ⟨cfg1, [[5], [7]], [[12]].headD []⟩ 2 =
      .error .leafIndexOutOfRange ∧
    (∃ p, CreateMembershipProof ⟨cfg1, [[5], [7]], [[12]].headD []⟩ 0 =
        .ok p ∧
      p.length = cfg1.depth * cfg1.hashSize ∧
      ∀ k, k < cfg1.depth →
        (p.drop (k * cfg1.hashSize)).take cfg1.hashSize =
          (Tree.levelAbove ⟨cfg1, [[5], [7]], [[12]].headD []⟩ k).getD
            ((0 / 2 ^ k) ^^^ 1) []) := by
  obtain ⟨h1, h2⟩ := C2_create_proof_spec cfg1 sumHash [[5], [7]]
    ⟨cfg1, [[5], [7]], [[12]].headD []⟩ rfl (fun _ => rfl) rfl rfl
  exact ⟨h1 2 (by decide), h2 0 (by decide)⟩

/-- Claim C3: `VerifyMembershipProof(index, proof)` returns the out-of-range
error when `index ≥ all_leaves`, and this result is independent of `proof`
(the range check precedes any look at the proof bytes); for in-range
`index` it never fails: it returns `true` exactly when recomputing upward
from the tree's stored leaf digest at `index` — consuming one
`hash_size`-byte chunk per level, operand order decided by the parity of
the path position — reproduces the tree's root digest byte-for-byte, and
`false` exactly on a mismatch (a mismatch is never an error). -/
theorem C3_verify_spec (t : Tree) :
    (∀ index proof, t.config.allLeavesNum ≤ index →
      VerifyMembershipProof t index proof = .error .leafIndexOutOfRange) ∧
    (∀ index proof proof', t.config.allLeavesNum ≤ index →
      VerifyMembershipProof t index proof =
        VerifyMembershipProof t index proof') ∧
    (∀ index proof, index < t.config.allLeavesNum →
      (VerifyMembershipProof t index proof = .ok true ↔
        verifyUp t.config.H t.config.hashSize t.config.depth proof index
          (t.leafLevel.getD index []) = t.rootDigest) ∧
      (VerifyMembershipProof t index proof = .ok false ↔
        ¬ verifyUp t.config.H t.config.hashSize t.config.depth proof index
          (t.leafLevel.getD index []) = t.rootDigest)) := by
  refine ⟨?_, ?_, ?_⟩
  · intro index proof hge
    rw [VerifyMembershipProof, if_pos (by omega)]
  · intro index proof proof' hge
    rw [VerifyMembershipProof, if_pos (by omega),
      VerifyMembershipProof, if_pos (by omega)]
  · intro index proof hlt
    rw [VerifyMembershipProof, if_neg (by omega)]
    constructor
    · simp
    · simp

/-- Concrete instance of claim C3: on the depth-1 toy tree over `sumHash`,
index 2 is rejected as out of range whatever the proof bytes, and the wrong
proof `[9]` for index 1 yields the boolean `false`, not an error. -/
theorem C3_witness :
    VerifyMembershipProof ⟨cfg1, [[5], [7]], [[12]].headD []⟩ 2 [9] =
      .error .leafIndexOutOfRange ∧
    VerifyMembershipProof ⟨cfg1, [[5], [7]], [[12]].headD []⟩ 1 [9] =
      .ok false := by
  have h := C3_verify_spec ⟨cfg1, [[5], [7]], [[12]].headD []⟩
  exact ⟨h.1 2 [9] (by decide), (h.2.2 1 [9] (by decide)).2.mpr (by decide)⟩

/-- Claim C4: `NewTree(config, leaves)` fails with the capacity error iff
`len(leaves) > all_leaves`, and succeeds otherwise (including for an empty
leaf list); on failure no tree is produced — construction is
all-or-nothing. -/
theorem C4_newtree_capacity (c : Config) (leaves : List Bytes) :
    (NewTree c leaves = .error .tooManyLeaves ↔
      c.allLeavesNum < leaves.length) ∧
    ((∃ t, NewTree c leaves = .ok t) ↔ leaves.length ≤ c.allLeavesNum) := by
  rw [NewTree]
  by_cases hg : leaves.length > c.allLeavesNum
  · rw [if_pos hg]
    refine ⟨⟨fun _ => by omega, fun _ => rfl⟩, ⟨fun ⟨t, h⟩ => ?_, fun h => by omega⟩⟩
    exact absurd h (by simp)
  · rw [if_neg hg]
    refine ⟨⟨fun h => absurd h (by simp), fun h => by omega⟩,
      ⟨fun _ => by omega, fun _ => ⟨_, rfl⟩⟩⟩

/-- A successful `NewConfig` call, fully evaluated: for in-bounds
parameters it stores the hasher untouched and derives both capacity
fields. -/
theorem NewConfig_ok (hasher : Option Hasher) (d s : Nat)
    (hD1 : 1 ≤ d) (hD2 : d ≤ 32) (hS1 : 1 ≤ s) (hS2 : s ≤ 64) :
    NewConfig hasher d s = .ok ⟨hasher, d, s, 2 ^ d, 2 * 2 ^ d - 1⟩ := by
  rw [NewConfig, if_neg (by simp only [DepthMin]; omega),
    if_neg (by simp only [DepthMax]; omega),
    if_neg (by simp only [HashSizeMin]; omega),
    if_neg (by simp only [HashSizeMax]; omega)]
  simp only [allNodesLoop_pow, Except.ok.injEq, Config.mk.injEq,
    true_and, and_true]
  rw [pow_succ]
  have := Nat.one_le_two_pow (n := d)
  omega

/-- Claim C6: for every depth `D ∈ [1, 32]` and hash size `S ∈ [1, 64]`,
`NewConfig` succeeds and the resulting config satisfies
`all_leaves = 2^D` and `all_nodes = 2·2^D − 1`. -/
theorem C6_config_capacity (hasher : Option Hasher) (D S : Nat)
    (hD1 : 1 ≤ D) (hD2 : D ≤ 32) (hS1 : 1 ≤ S) (hS2 : S ≤ 64) :
    ∃ c, NewConfig hasher D S = .ok c ∧
      c.allLeavesNum = 2 ^ D ∧ c.allNodesNum = 2 * 2 ^ D - 1 :=
  ⟨⟨hasher, D, S, 2 ^ D, 2 * 2 ^ D - 1⟩,
    NewConfig_ok hasher D S hD1 hD2 hS1 hS2, rfl, rfl⟩

/-- Concrete instance of claim C6 at depth 2, hash size 32: capacity 4 and
7 nodes in total. -/
theorem C6_witness :
    ∃ c, NewConfig none 2 32 = .ok c ∧
      c.allLeavesNum = 2 ^ 2 ∧ c.allNodesNum = 2 * 2 ^ 2 - 1 :=
  C6_config_capacity none 2 32 (by decide) (by decide) (by decide) (by decide)

/-- Claim C7: `NewConfig` validates in the fixed order depth-too-small,
depth-too-large, hash-size-too-small, hash-size-too-large, reporting the
error of the first violated bound without checking the later ones (the
depth errors are reported for every hash size, in or out of bounds); the
bounds are `depth ∈ [1, 32]` and `hash_size ∈ [1, 64]`. -/
theorem C7_config_validation_order (hasher : Option Hasher) (d s : Nat) :
    (d < 1 → NewConfig hasher d s = .error .tooSmallDepth) ∧
    (1 ≤ d → 32 < d → NewConfig hasher d s = .error .tooLargeDepth) ∧
    (1 ≤ d → d ≤ 32 → s < 1 →
      NewConfig hasher d s = .error .tooSmallHashSize) ∧
    (1 ≤ d → d ≤ 32 → 1 ≤ s → 64 < s →
      NewConfig hasher d s = .error .tooLargeHashSize) ∧
    (1 ≤ d → d ≤ 32 → 1 ≤ s → s ≤ 64 →
      ∃ c, NewConfig hasher d s = .ok c) := by
  refine ⟨?_, ?_, ?_, ?_, ?_⟩
  · intro h1
    rw [NewConfig, if_pos (by simp only [DepthMin]; omega)]
  · intro h1 h2
    rw [NewConfig, if_neg (by simp only [DepthMin]; omega),
      if_pos (by simp only [DepthMax]; omega)]
  · intro h1 h2 h3
    rw [NewConfig, if_neg (by simp only [DepthMin]; omega),
      if_neg (by simp only [DepthMax]; omega),
      if_pos (by simp only [HashSizeMin]; omega)]
  · intro h1 h2 h3 h4
    rw [NewConfig, if_neg (by simp only [DepthMin]; omega),
      if_neg (by simp only [DepthMax]; omega),
      if_neg (by simp only [HashSizeMin]; omega),
      if_pos (by simp only [HashSizeMax]; omega)]
  · intro h1 h2 h3 h4
    exact ⟨_, NewConfig_ok hasher d s h1 h2 h3 h4⟩

/-- Concrete instances of claim C7: depth 0 is reported as too small even
with an out-of-bounds hash size (later checks skipped), depth 33 as too
large, hash size 0 as too small, hash size 65 as too large, and in-bounds
parameters succeed. -/
theorem C7_witness :
    NewConfig none 0 999 = .error .tooSmallDepth ∧
    NewConfig none 33 999 = .error .tooLargeDepth ∧
    NewConfig none 32 0 = .error .tooSmallHashSize ∧
    NewConfig none 32 65 = .error .tooLargeHashSize ∧
    ∃ c, NewConfig none 1 64 = .ok c :=
  ⟨(C7_config_validation_order none 0 999).1 (by decide),
    (C7_config_validation_order none 33 999).2.1 (by decide) (by decide),
    (C7_config_validation_order none 32 0).2.2.1 (by decide) (by decide)
      (by decide),
    (C7_config_validation_order none 32 65).2.2.2.1 (by decide) (by decide)
      (by decide) (by decide),
    (C7_config_validation_order none 1 64).2.2.2.2 (by decide) (by decide)
      (by decide) (by decide)⟩

/-- Claim C10: `NewConfig` performs no validation of the hasher argument:
for every in-bounds depth and hash size, passing a `nil` hasher succeeds
and the resulting config's hasher is `nil`. -/
theorem C10_nil_hasher_accepted (d s : Nat)
    (hD1 : 1 ≤ d) (hD2 : d ≤ 32) (hS1 : 1 ≤ s) (hS2 : s ≤ 64) :
    ∃ c, NewConfig none d s = .ok c ∧ c.hasher = none :=
  ⟨⟨none, d, s, 2 ^ d, 2 * 2 ^ d - 1⟩,
    NewConfig_ok none d s hD1 hD2 hS1 hS2, rfl⟩

/-- Concrete instance of claim C10 at depth 32, hash size 64. -/
theorem C10_witness :
    ∃ c, NewConfig none 32 64 = .ok c ∧ c.hasher = none :=
  C10_nil_hasher_accepted 32 64 (by decide) (by decide) (by decide)
    (by decide)

/-- Claim C9: tree construction is deterministic — two `NewTree` calls with
the same config and the same leaf sequence yield the same root digest. -/
theorem C9_deterministic (c : Config) (leaves : List Bytes) (t1 t2 : Tree)
    (h1 : NewTree c leaves = .ok t1) (h2 : NewTree c leaves = .ok t2) :
    t1.Root = t2.Root := by
  rw [h1] at h2
  rw [Except.ok.inj h2]

/-- Counterexample to claim C8 as stated: with the collision-free hasher
`pairHash` (injective, so no hash collision can be involved), the depth-1
tree over the two identical leaves `[5]` and `[5]` accepts the proof
created for index 0 at index 1 as well: `verify(1, create(0))` is `true`
although `1 ≠ 0` and both indices are in range. -/
theorem C8_counterexample :
    Function.Injective pairHash ∧
    (1 : Nat) ≠ 0 ∧ 1 < cfgP.allLeavesNum ∧
    NewTree cfgP [[5], [5]] = .ok ⟨cfgP, [[31], [31]], [986081]⟩ ∧
    CreateMembershipProof ⟨cfgP, [[31], [31]], [986081]⟩ 0 = .ok [31] ∧
    VerifyMembershipProof ⟨cfgP, [[31], [31]], [986081]⟩ 1 [31] =
      .ok true :=
  ⟨pairHash_injective, by decide, by decide, rfl, rfl, rfl⟩

/-- Claim C8, amended: the counterexample above forces the extra assumption
that the tree's leaf-level digests are pairwise distinct (and makes the
informal "barring hash collision" proviso precise as injectivity of the
hasher).  Then a proof created for index `i` is rejected at every in-range
index `j ≠ i`: `verify_membership_proof(j, create_membership_proof(i))`
returns `false`. -/
theorem C8_nonmalleability_amended
    (c : Config) (H : Hasher) (leaves : List Bytes) (t : Tree)
    (i j : Nat) (proof : Bytes)
    (hH : c.hasher = some H)
    (hinj : Function.Injective H)
    (hlen : ∀ b, (H b).length = c.hashSize)
    (hcap : c.allLeavesNum = 2 ^ c.depth)
    (ht : NewTree c leaves = .ok t)
    (hnd : t.leafLevel.Nodup)
    (hi : i < c.allLeavesNum) (hj : j < c.allLeavesNum) (hji : j ≠ i)
    (hp : CreateMembershipProof t i = .ok proof) :
    VerifyMembershipProof t j proof = .ok false := by
  obtain ⟨hfit, hconf, hleaf, hroot⟩ := NewTree_ok_inv ht
  have hcH : c.H = H := by rw [Config.H, hH]; rfl
  have hlvl : ∀ b ∈ t.leafLevel, b.length = c.hashSize := by
    rw [hleaf, hcH]
    exact mkLeafLevel_mem_length H c.hashSize leaves c.allLeavesNum hlen
  have hlvlen : t.leafLevel.length = 2 ^ c.depth := by
    rw [hleaf, hcH, mkLeafLevel_length H c.hashSize leaves c.allLeavesNum hfit,
      hcap]
  rw [CreateMembershipProof, hconf, if_neg (by omega)] at hp
  have hproof := (Except.ok.inj hp).symm
  rw [VerifyMembershipProof, hconf, if_neg (by omega)]
  simp only [Except.ok.injEq, decide_eq_false_iff_not]
  rw [hproof, hroot, hcH]
  exact verifyUp_siblings_ne H c.hashSize hinj hlen c.depth t.leafLevel i j
    (t.leafLevel.getD j []) hlvl hlvlen hnd (by omega) (by omega)
    (getD_length t.leafLevel j c.hashSize hlvl (by omega))
    (Or.inr (fun h => hji h.symm))

/-- Concrete instance of the amended claim C8: on the depth-1 tree over the
collision-free hasher with the two distinct leaves `[5]` and `[7]`, the
proof `[57]` created for index 0 is rejected at index 1. -/
theorem C8_witness :
    VerifyMembershipProof ⟨cfgP, [[31], [57]], [10936281]⟩ 1 [57] =
      .ok false :=
  C8_nonmalleability_amended cfgP pairHash [[5], [7]]
    ⟨cfgP, [[31], [57]], [10936281]⟩ 0 1 [57]
    rfl pairHash_injective (fun _ => rfl) rfl rfl (by decide) (by decide)
    (by decide) (by decide) rfl

/-- Concrete instance of claim C9 on the depth-1 toy tree. -/
theorem C9_witness :
    Tree.Root ⟨cfg1, [[5], [7]], [[12]].headD []⟩ =
      Tree.Root ⟨cfg1, [[5], [7]], [[12]].headD []⟩ :=
  C9_deterministic cfg1 [[5], [7]] _ _ rfl rfl

/-- The leaf-level digest at a supplied position is the hash of the
supplied leaf. -/
theorem mkLeafLevel_getD_lt (H : Hasher) (hs : Nat) (leaves : List Bytes)
    (n : Nat) (i : Nat) (hi : i < leaves.length) :
    (mkLeafLevel H hs leaves n).getD i [] = H (leaves.getD i []) := by
  have h1 : i < (leaves.map H).length := by simpa using hi
  have h2 : i < (leaves.map H ++
      List.replicate (n - leaves.length) (emptyLeaf H hs)).length := by
    simp
    omega
  rw [mkLeafLevel, List.getD_eq_getElem _ _ h2, List.getElem_append_left h1,
    List.getElem_map, List.getD_eq_getElem _ _ hi]

/-- The leaf-level digest at an unsupplied position is the empty-leaf
sentinel. -/
theorem mkLeafLevel_getD_ge (H : Hasher) (hs : Nat) (leaves : List Bytes)
    (n : Nat) (i : Nat) (hge : leaves.length ≤ i) (hlt : i < n) :
    (mkLeafLevel H hs leaves n).getD i [] = emptyLeaf H hs := by
  have h1 : (leaves.map H).length ≤ i := by simpa using hge
  have h2 : i < (leaves.map H ++
      List.replicate (n - leaves.length) (emptyLeaf H hs)).length := by
    simp
    omega
  rw [mkLeafLevel, List.getD_eq_getElem _ _ h2,
    List.getElem_append_right h1, List.getElem_replicate]

/-- Claim C5: in every tree returned by `NewTree`, the digest of the node at
position `p` of each internal level is the hash of its left child's digest
concatenated with its right child's digest (children at positions `2p` and
`2p+1` one level below, left-then-right), and the leaf digest at position
`i` is `H(leaves[i])` for `i < len(leaves)` and the empty-leaf sentinel
digest for the remaining positions. -/
theorem C5_tree_invariants
    (c : Config) (H : Hasher) (leaves : List Bytes) (t : Tree)
    (hH : c.hasher = some H)
    (hcap : c.allLeavesNum = 2 ^ c.depth)
    (ht : NewTree c leaves = .ok t) :
    (∀ j p, j < c.depth → p < 2 ^ (c.depth - (j + 1)) →
      (t.levelAbove (j + 1)).getD p [] =
        H ((t.levelAbove j).getD (2 * p) [] ++
           (t.levelAbove j).getD (2 * p + 1) [])) ∧
    (∀ i, i < leaves.length →
      t.leafLevel.getD i [] = H (leaves.getD i [])) ∧
    (∀ i, leaves.length ≤ i → i < c.allLeavesNum →
      t.leafLevel.getD i [] = emptyLeaf H c.hashSize) := by
  obtain ⟨hfit, hconf, hleaf, hroot⟩ := NewTree_ok_inv ht
  have hcH : c.H = H := by rw [Config.H, hH]; rfl
  have hlvlen : t.leafLevel.length = 2 ^ c.depth := by
    rw [hleaf, hcH, mkLeafLevel_length H c.hashSize leaves c.allLeavesNum hfit,
      hcap]
  refine ⟨?_, ?_, ?_⟩
  · intro j p hj hp
    have hjlen : ((levelUp H)^[j] t.leafLevel).length = 2 ^ (c.depth - j) := by
      rw [iterate_levelUp_length, hlvlen, Nat.pow_div (by omega) (by norm_num)]
    have hsplit : 2 ^ (c.depth - j) = 2 * 2 ^ (c.depth - (j + 1)) := by
      have e : c.depth - j = (c.depth - (j + 1)) + 1 := by omega
      rw [e, pow_succ]
      ring
    rw [Tree.levelAbove, Tree.levelAbove, hconf, hcH,
      Function.iterate_succ_apply',
      levelUp_getD H ((levelUp H)^[j] t.leafLevel) p (by omega)]
  · intro i hi
    rw [hleaf, hcH, mkLeafLevel_getD_lt H c.hashSize leaves c.allLeavesNum i hi]
  · intro i hge hlt
    rw [hleaf, hcH,
      mkLeafLevel_getD_ge H c.hashSize leaves c.allLeavesNum i hge (by omega)]

/-- Concrete instance of claim C5: in the depth-1 toy tree built from the
single leaf `[5]`, the root is the hash of the two leaf digests, leaf 0
holds the hash of the supplied leaf and leaf 1 holds the empty-leaf
sentinel. -/
theorem C5_witness :
    (Tree.levelAbove ⟨cfg1, [[5], [0]], [[5]].headD []⟩ 1).getD 0 [] =
      sumHash ((Tree.levelAbove ⟨cfg1, [[5], [0]], [[5]].headD []⟩ 0).getD 0 []
        ++ (Tree.levelAbove ⟨cfg1, [[5], [0]], [[5]].headD []⟩ 0).getD 1 []) ∧
    (Tree.leafLevel ⟨cfg1, [[5], [0]], [[5]].headD []⟩).getD 0 [] =
      sumHash ([[5]].getD 0 []) ∧
    (Tree.leafLevel ⟨cfg1, [[5], [0]], [[5]].headD []⟩).getD 1 [] =
      emptyLeaf sumHash cfg1.hashSize := by
  have h := C5_tree_invariants cfg1 sumHash [[5]]
    ⟨cfg1, [[5], [0]], [[5]].headD []⟩ rfl rfl rfl
  exact ⟨h.1 0 0 (by decide) (by decide), h.2.1 0 (by decide),
    h.2.2 1 (by decide) (by decide)⟩

/-- Concrete instance of claim C1: on the depth-1 toy tree over `sumHash`
with leaves `[5]` and `[7]`, the proof `[7]` created for index 0 verifies. -/
theorem C1_witness :
    VerifyMembershipProof ⟨cfg1, [[5], [7]], [[12]].headD []⟩ 0 [7] =
      .ok true :=
  C1_create_verify_roundtrip cfg1 sumHash [[5], [7]]
    ⟨cfg1, [[5], [7]], [[12]].headD []⟩ 0 [7]
    rfl (fun _ => rfl) rfl rfl (by decide) rfl

end Merkle

example :
    (Merkle.NewTree Merkle.cfg1 [[5], [7]]).map Merkle.Tree.Root =
      .ok [5 + 7] := by rfl

example :
    (Merkle.NewTree Merkle.cfg1 [[5], [7]]).map
      (fun t => Merkle.CreateMembershipProof t 0) = .ok (.ok [7]) := by rfl

example :
    (Merkle.NewTree Merkle.cfg1 [[5], [7]]).map
      (fun t => Merkle.VerifyMembershipProof t 0 [7]) =
        .ok (.ok true) := by rfl

example :
    (Merkle.NewTree Merkle.cfg1 [[5], [7]]).map
      (fun t => Merkle.VerifyMembershipProof t 1 [7]) =
        .ok (.ok false) := by rfl

example : Merkle.NewConfig none 2 32 =
    .ok ⟨none, 2, 32, 4, 7⟩ := by
  rw [Merkle.NewConfig]
  norm_num [Merkle.DepthMin, Merkle.DepthMax, Merkle.HashSizeMin,
    Merkle.HashSizeMax]
  rw [show (4 : Nat) = 2 ^ 2 by norm_num, Merkle.allNodesLoop_pow]
  norm_num
